import Mathlib

/-!
Verification of the polars rolling-window and groupby compute core.

This development shallowly embeds the Rust sources
  polars-arrow/src/kernels/rolling/mod.rs
  polars-arrow/src/kernels/rolling/nulls.rs
  polars-core/src/frame/groupby/into_groups.rs
into Lean and settles the specification claims about them.

Machine integers (usize) are modelled as Nat: the kernels only ever
subtract with Rust saturating_sub (Nat subtraction) and all quantities
stay far below 2^64, so no wraparound modelling is needed.
Float buffers are modelled by exact scalars (generic element type,
instantiated at Int / Rat), except where IEEE non-finiteness is the point
of a claim, where a small explicit float model is used.
-/

namespace Polars

/-! ## Window offset policy (rolling/mod.rs lines 69-78) -/

/-- Embedding of det_offsets: trailing window `[i+1-ws, i+1)`.
Rust saturating_sub is Nat subtraction. -/
def det_offsets (i window_size _len : ℕ) : ℕ × ℕ :=
  (i - (window_size - 1), i + 1)

/-- Embedding of det_offsets_center: centered window with
right_window = (window_size + 1) / 2 (Rust integer division). -/
def det_offsets_center (i window_size len : ℕ) : ℕ × ℕ :=
  (i - (window_size - (window_size + 1) / 2),
   min len (i + (window_size + 1) / 2))

/-- The centered offset function exactly as the spec's words describe it:
right = ceil((window_size+1)/2), start = max(0, i - (window_size - right)),
end = min(len, i + right).  In Nat, ceil((ws+1)/2) = (ws+2)/2 and
max(0, a - b) = a - b.  Kept only to compare against the source embedding. -/
def det_offsets_center_claimed (i window_size len : ℕ) : ℕ × ℕ :=
  (i - (window_size - (window_size + 2) / 2),
   min len (i + (window_size + 2) / 2))

/-- Window length of an offset pair. -/
def winLen (fo : ℕ → ℕ → ℕ → ℕ × ℕ) (ws len i : ℕ) : ℕ :=
  (fo i ws len).2 - (fo i ws len).1

/-! ## NaN-aware comparators (rolling/mod.rs lines 31-67, 119-138)

A 64-bit float value is either NaN or a non-NaN value.  Non-NaN values are
modelled by NNF: minus infinity, minus zero, plus infinity, or a finite
rational (with fin 0 playing +0.0; negzero is the distinct bit pattern
-0.0 that compares equal to it).  Rust partial_cmp on f64 returns None
exactly when one side is NaN, and on non-NaN values is the total order
with -0.0 == +0.0; both are mirrored below. -/

inductive NNF where
  | neginf : NNF
  | negzero : NNF
  | fin : ℚ → NNF
  | posinf : NNF
deriving DecidableEq

/-- The rational magnitude of a finite non-NaN value (-0.0 collapses to 0). -/
def NNF.q : NNF → ℚ
  | .negzero => 0
  | .fin x => x
  | .neginf => 0
  | .posinf => 0

/-- Three-way comparison of rationals. -/
def qcmp (a b : ℚ) : Ordering :=
  if a < b then .lt else if b < a then .gt else .eq

/-- Total order on non-NaN float values: -inf below everything, +inf above
everything, finite values (with both zeros identified) by magnitude. -/
def nnfCmp : NNF → NNF → Ordering
  | .neginf, .neginf => .eq
  | .neginf, _ => .lt
  | _, .neginf => .gt
  | .posinf, .posinf => .eq
  | _, .posinf => .lt
  | .posinf, _ => .gt
  | a, b => qcmp a.q b.q

inductive FP where
  | nan : FP
  | num : NNF → FP
deriving DecidableEq

def FP.isNan : FP → Bool
  | .nan => true
  | .num _ => false

/-- Rust f64::partial_cmp: None iff either operand is NaN. -/
def fpPartialCmp : FP → FP → Option Ordering
  | .num a, .num b => some (nnfCmp a b)
  | _, _ => none

/-- Embedding of compare_fn_nan_min (float instantiation, is_float = true).
The unsafe unwrap_unchecked of partial_cmp in the (false, false) arm is
modelled by getD; fpPartialCmp_isSome shows that arm never sees none. -/
def compare_fn_nan_min (a b : FP) : Ordering :=
  match a.isNan, b.isNan with
  | false, false => (fpPartialCmp a b).getD .eq
  | true, true => .eq
  | true, false => .lt
  | false, true => .gt

/-- Embedding of compare_fn_nan_max (float instantiation, is_float = true). -/
def compare_fn_nan_max (a b : FP) : Ordering :=
  match a.isNan, b.isNan with
  | false, false => (fpPartialCmp a b).getD .eq
  | true, true => .eq
  | true, false => .gt
  | false, true => .lt

/-- Rust integer partial_cmp: always Some of the natural total order. -/
def intPartialCmp (a b : ℤ) : Option Ordering :=
  some (if a < b then .lt else if b < a then .gt else .eq)

/-- Embedding of compare_fn_nan_min at an integer type (is_float = false):
the else branch unwraps partial_cmp, which is total on integers. -/
def compare_fn_nan_min_int (a b : ℤ) : Ordering :=
  (intPartialCmp a b).getD .eq

/-- Embedding of compare_fn_nan_max at an integer type (is_float = false). -/
def compare_fn_nan_max_int (a b : ℤ) : Ordering :=
  (intPartialCmp a b).getD .eq

/-- The inline float comparator of sort_buf (rolling/mod.rs lines 124-132):
NaN compares Greater so all NaNs sort to the end. -/
def sortBufCmp (a b : FP) : Ordering :=
  match a.isNan, b.isNan with
  | false, false => (fpPartialCmp a b).getD .eq
  | true, true => .eq
  | true, false => .gt
  | false, true => .lt

/-- The non-strict relation slice::sort_by sorts into: a stays before b
when the comparator does not say Greater. -/
def sortBufLe (a b : FP) : Prop := sortBufCmp a b ≠ .gt

instance : DecidableRel sortBufLe := fun a b =>
  inferInstanceAs (Decidable (¬ sortBufCmp a b = Ordering.gt))

/-- Embedding of sort_buf (float instantiation): a comparison sort by the
inline NaN-aware comparator; slice::sort_by is modelled by insertion sort,
which realizes the sort_by contract (a stable permutation that is sorted
with respect to the comparator). -/
def sort_buf (l : List FP) : List FP :=
  List.insertionSort sortBufLe l

/-- Band of a non-NaN value: -1 for -inf, 1 for +inf, 0 for finite values. -/
def NNF.band : NNF → ℤ
  | .neginf => -1
  | .posinf => 1
  | _ => 0

/-! ## Rolling kernels over nullable arrays (nulls.rs)

The element type is generic, as in the Rust source (T: NativeType + ...).
The validity bitmap is a list of Bools of the array's length; reading it
out of range defaults to valid, which never happens on the paths proven
below. -/

section RollingModel

variable {α : Type} [Zero α] [One α] [Add α] [Sub α] [Mul α] [Div α]

/-- Number of zero (null) bits of the validity bitmap in positions
[off, off + n) (arrow count_zeros). -/
def nullsIn (valid : List Bool) : ℕ → ℕ → ℕ
  | _, 0 => 0
  | off, n + 1 => (if valid.getD off true then 0 else 1) + nullsIn valid (off + 1) n

/-- The valid values of a window slice, in order: vals[k] is kept when
validity bit off + k is set. -/
def keptVals (valid : List Bool) : ℕ → List α → List α
  | _, [] => []
  | off, v :: rest =>
      if valid.getD off true then v :: keptVals valid (off + 1) rest
      else keptVals valid (off + 1) rest

/-- The accumulation loop of compute_sum: out += val at valid positions. -/
def loopSum (valid : List Bool) : ℕ → List α → α → α
  | _, [], acc => acc
  | off, v :: rest, acc =>
      loopSum valid (off + 1) rest (if valid.getD off true then acc + v else acc)

/-- The accumulation loop of compute_mean: out += val and count += 1 at
valid positions. -/
def loopSumCount (valid : List Bool) : ℕ → List α → α × α → α × α
  | _, [], acc => acc
  | off, v :: rest, acc =>
      loopSumCount valid (off + 1) rest
        (if valid.getD off true then (acc.1 + v, acc.2 + 1) else acc)

/-- The accumulation loop of compute_var: sum += (val - mean)^2 and
count += 1 at valid positions. -/
def loopSqCount (valid : List Bool) (mean : α) : ℕ → List α → α × α → α × α
  | _, [], acc => acc
  | off, v :: rest, acc =>
      loopSqCount valid mean (off + 1) rest
        (if valid.getD off true then (acc.1 + (v - mean) * (v - mean), acc.2 + 1) else acc)

/-- A loop count materialized in the element type by repeated += 1. -/
def natToT : ℕ → α
  | 0 => 0
  | n + 1 => natToT n + 1

/-- Modelled from the spec: no_nulls::compute_sum (module rolling/no_nulls
is not under src/); spec §4.3: direct re-summation of the window. -/
def no_nulls_compute_sum (vals : List α) : α :=
  vals.foldl (fun acc v => acc + v) 0

/-- Modelled from the spec: no_nulls::compute_mean (not under src/); spec
§4.3: the sum divided by the count of valid values (here all values). -/
def no_nulls_compute_mean (vals : List α) : α :=
  no_nulls_compute_sum vals / natToT vals.length

/-- Modelled from the spec: no_nulls::compute_var (not under src/); spec
§4.3: two-pass sample variance, sum of squared deviations from the mean
divided by count - 1. -/
def no_nulls_compute_var (vals : List α) : α :=
  (vals.foldl
      (fun acc v =>
        acc + (v - no_nulls_compute_mean vals) * (v - no_nulls_compute_mean vals)) 0) /
    (natToT vals.length - 1)

/-- Embedding of nulls.rs compute_sum (lines 120-145). -/
def compute_sum (vals : List α) (valid : List Bool) (off min_periods : ℕ) : Option α :=
  let null_count := nullsIn valid off vals.length
  if null_count = 0 then some (no_nulls_compute_sum vals)
  else if vals.length - null_count < min_periods then none
  else some (loopSum valid off vals 0)

/-- Embedding of nulls.rs compute_mean (lines 147-174). -/
def compute_mean (vals : List α) (valid : List Bool) (off min_periods : ℕ) : Option α :=
  let null_count := nullsIn valid off vals.length
  if null_count = 0 then some (no_nulls_compute_mean vals)
  else if vals.length - null_count < min_periods then none
  else
    let sc := loopSumCount valid off vals (0, 0)
    some (sc.1 / sc.2)

/-- Embedding of nulls.rs compute_var (lines 176-209). -/
def compute_var (vals : List α) (valid : List Bool) (off min_periods : ℕ) : Option α :=
  let null_count := nullsIn valid off vals.length
  if null_count = 0 then some (no_nulls_compute_var vals)
  else if vals.length - null_count < min_periods then none
  else
    match compute_mean vals valid off min_periods with
    | none => none
    | some mean =>
        let sc := loopSqCount valid mean off vals (0, 0)
        some (sc.1 / (sc.2 - 1))

/-- The claim-side count of valid source values in bitmap positions
[off, off + n). -/
def validCount (valid : List Bool) : ℕ → ℕ → ℕ
  | _, 0 => 0
  | off, n + 1 => (if valid.getD off true then 1 else 0) + validCount valid (off + 1) n

/-- One boundary pass of create_validity: walk the given index order,
clearing bits while the predicate (window shorter than min_periods) holds,
breaking at the first index where it fails. -/
def setWhileShort (p : ℕ → Bool) : List Bool → List ℕ → List Bool
  | v, [] => v
  | v, i :: rest => if p i then setWhileShort p (v.set i false) rest else v

/-- Embedding of create_validity (rolling/mod.rs lines 80-118): for
min_periods > 1, start all-true and clear the head run (forward scan with
break) and the tail run (backward scan with break); otherwise None. -/
def create_validity (min_periods len window_size : ℕ)
    (fo : ℕ → ℕ → ℕ → ℕ × ℕ) : Option (List Bool) :=
  if 1 < min_periods then
    some (setWhileShort (fun i => decide (winLen fo window_size len i < min_periods))
      (setWhileShort (fun i => decide (winLen fo window_size len i < min_periods))
        (List.replicate len true) (List.range len))
      (List.range len).reverse)
  else none

/-- The output bitmap rolling_apply starts from: the create_validity
result, unwrapped to a fresh all-true bitmap when it is None. -/
def out_validity (min_periods len window_size : ℕ)
    (fo : ℕ → ℕ → ℕ → ℕ × ℕ) : List Bool :=
  match create_validity min_periods len window_size fo with
  | some v => v
  | none => List.replicate len true

/-- Embedding of nulls.rs rolling_apply (lines 69-118): per index, the
aggregator runs on the window slice values[start..end) with the bitmap
offset start; the output validity starts from create_validity (or
all-true) and is further cleared where the aggregator returns None.  An
output cell is null iff its final validity bit is clear. -/
def rolling_apply (agg : List α → List Bool → ℕ → ℕ → Option α)
    (values : List α) (valid : List Bool) (window_size min_periods : ℕ)
    (fo : ℕ → ℕ → ℕ → ℕ × ℕ) : List (Option α) :=
  let len := values.length
  let base := out_validity min_periods len window_size fo
  (List.range len).map (fun idx =>
    let se := fo idx window_size len
    match agg ((values.drop se.1).take (se.2 - se.1)) valid se.1 min_periods with
    | some v => if base.getD idx true then some v else none
    | none => none)

/-- A primitive arrow array: a values buffer plus optional validity. -/
structure PrimArray (α : Type) where
  values : List α
  validity : Option (List Bool)

/-- The panics the nulls kernels can raise before producing output. -/
inductive KernelPanic where
  | weightsNotSupported : KernelPanic
  | validityUnwrap : KernelPanic
deriving DecidableEq

/-- Embedding of nulls.rs rolling_sum (lines 245-277): panic when weights
are supplied; unwrap the validity bitmap (panic when absent); dispatch on
center to rolling_apply with compute_sum. -/
def rolling_sum (arr : PrimArray α) (window_size min_periods : ℕ)
    (center : Bool) (weights : Option (List ℚ)) :
    Except KernelPanic (List (Option α)) :=
  if weights.isSome then .error .weightsNotSupported
  else
    match arr.validity with
    | none => .error .validityUnwrap
    | some v =>
        if center then
          .ok (rolling_apply compute_sum arr.values v window_size min_periods
            det_offsets_center)
        else
          .ok (rolling_apply compute_sum arr.values v window_size min_periods
            det_offsets)

/-- Embedding of nulls.rs rolling_mean (lines 279-311). -/
def rolling_mean (arr : PrimArray α) (window_size min_periods : ℕ)
    (center : Bool) (weights : Option (List ℚ)) :
    Except KernelPanic (List (Option α)) :=
  if weights.isSome then .error .weightsNotSupported
  else
    match arr.validity with
    | none => .error .validityUnwrap
    | some v =>
        if center then
          .ok (rolling_apply compute_mean arr.values v window_size min_periods
            det_offsets_center)
        else
          .ok (rolling_apply compute_mean arr.values v window_size min_periods
            det_offsets)

/-- Embedding of nulls.rs rolling_var (lines 211-243). -/
def rolling_var (arr : PrimArray α) (window_size min_periods : ℕ)
    (center : Bool) (weights : Option (List ℚ)) :
    Except KernelPanic (List (Option α)) :=
  if weights.isSome then .error .weightsNotSupported
  else
    match arr.validity with
    | none => .error .validityUnwrap
    | some v =>
        if center then
          .ok (rolling_apply compute_var arr.values v window_size min_periods
            det_offsets_center)
        else
          .ok (rolling_apply compute_var arr.values v window_size min_periods
            det_offsets)

end RollingModel

/-! ## A minimal IEEE double model (for the non-finiteness claim)

compute_var divides by count - 1; with exactly one valid value this is a
division by zero whose IEEE result is non-finite.  FloatM models a double
as NaN, an infinity, or a finite rational, with the IEEE propagation rules
for the operations compute_var performs. -/

inductive FloatM where
  | nan : FloatM
  | inf : FloatM
  | ninf : FloatM
  | num : ℚ → FloatM
deriving DecidableEq

/-- IEEE addition on the double model. -/
def FloatM.add : FloatM → FloatM → FloatM
  | .nan, _ => .nan
  | _, .nan => .nan
  | .inf, .ninf => .nan
  | .ninf, .inf => .nan
  | .inf, _ => .inf
  | _, .inf => .inf
  | .ninf, _ => .ninf
  | _, .ninf => .ninf
  | .num a, .num b => .num (a + b)

/-- IEEE subtraction on the double model. -/
def FloatM.sub : FloatM → FloatM → FloatM
  | .nan, _ => .nan
  | _, .nan => .nan
  | .inf, .inf => .nan
  | .ninf, .ninf => .nan
  | .inf, _ => .inf
  | .ninf, _ => .ninf
  | _, .inf => .ninf
  | _, .ninf => .inf
  | .num a, .num b => .num (a - b)

/-- IEEE multiplication on the double model (zero times infinity is NaN). -/
def FloatM.mul : FloatM → FloatM → FloatM
  | .nan, _ => .nan
  | _, .nan => .nan
  | .inf, .inf => .inf
  | .inf, .ninf => .ninf
  | .ninf, .inf => .ninf
  | .ninf, .ninf => .inf
  | .inf, .num b => if b = 0 then .nan else if 0 < b then .inf else .ninf
  | .num a, .inf => if a = 0 then .nan else if 0 < a then .inf else .ninf
  | .ninf, .num b => if b = 0 then .nan else if 0 < b then .ninf else .inf
  | .num a, .ninf => if a = 0 then .nan else if 0 < a then .ninf else .inf
  | .num a, .num b => .num (a * b)

/-- IEEE division on the double model (0/0 is NaN, x/0 is an infinity,
infinity/infinity is NaN). -/
def FloatM.div : FloatM → FloatM → FloatM
  | .nan, _ => .nan
  | _, .nan => .nan
  | .inf, .inf => .nan
  | .inf, .ninf => .nan
  | .ninf, .inf => .nan
  | .ninf, .ninf => .nan
  | .inf, .num b => if 0 ≤ b then .inf else .ninf
  | .ninf, .num b => if 0 ≤ b then .ninf else .inf
  | .num _, .inf => .num 0
  | .num _, .ninf => .num 0
  | .num a, .num b =>
      if b = 0 then (if a = 0 then .nan else if 0 < a then .inf else .ninf)
      else .num (a / b)

instance : Zero FloatM := ⟨FloatM.num 0⟩

instance : One FloatM := ⟨FloatM.num 1⟩

instance : Add FloatM := ⟨FloatM.add⟩

instance : Sub FloatM := ⟨FloatM.sub⟩

instance : Mul FloatM := ⟨FloatM.mul⟩

instance : Div FloatM := ⟨FloatM.div⟩

/-- Finiteness of a double-model value. -/
def FloatM.isFinite : FloatM → Bool
  | .num _ => true
  | _ => false

/-- The spec's words for the rolling mean of a window's valid subset:
the sum divided by the count of valid values. -/
def specMean (l : List ℚ) : ℚ := l.sum / l.length

/-- The spec's words for the rolling sample variance of a window's valid
subset: mean of the subset, then sum of squared deviations from that mean
over the same subset, divided by count - 1. -/
def specVar (l : List ℚ) : ℚ :=
  (l.map (fun v => (v - specMean l) * (v - specMean l))).sum / (l.length - 1)

/-! ## Groupby tuple engine (into_groups.rs)

A chunked array is a list of chunks; each chunk is a list of optional
values (the values buffer with unobservable slots under nulls modelled by
Option, read back through getD default).  The grouping output GroupsProxy
is the Slice or Idx variant. -/

inductive IsSorted where
  | ascending : IsSorted
  | descending : IsSorted
  | not : IsSorted
deriving DecidableEq

structure ChunkedArray (α : Type) where
  chunks : List (List (Option α))
  sorted_flag : IsSorted

/-- The cached sortedness flag tests (polars-core Series metadata). -/
def is_sorted_ascending_flag (ca : ChunkedArray α) : Bool :=
  match ca.sorted_flag with
  | .ascending => true
  | _ => false

def is_sorted_descending_flag (ca : ChunkedArray α) : Bool :=
  match ca.sorted_flag with
  | .descending => true
  | _ => false

/-- Total logical length of a chunked array. -/
def ca_len (ca : ChunkedArray α) : ℕ :=
  (ca.chunks.map List.length).sum

/-- The sorted-fast-path condition of group_tuples (into_groups.rs lines
156-157), with Rust operator precedence (&& binds tighter than ||):
ascending OR (descending AND a single chunk). -/
def sorted_path_cond (ca : ChunkedArray α) : Bool :=
  is_sorted_ascending_flag ca ||
    (is_sorted_descending_flag ca && (ca.chunks.length == 1))

/-- The fast-path trigger as the spec and claim C1 word it:
(Ascending or Descending) AND a single chunk.  Kept only to compare
against the source condition. -/
def sorted_path_claimed (ca : ChunkedArray α) : Bool :=
  (is_sorted_ascending_flag ca || is_sorted_descending_flag ca) &&
    (ca.chunks.length == 1)

/-- Modelled from the spec: the run-collapsing scan inside
partition_to_groups (polars-arrow sort_partition, not under src/):
consecutive equal values collapse into (first_index, length) pairs. -/
def collapseRuns [DecidableEq α] : List α → α → ℕ → ℕ → List (ℕ × ℕ)
  | [], _, start, cnt => [(start, cnt)]
  | v :: rest, cur, start, cnt =>
      if v = cur then collapseRuns rest cur start (cnt + 1)
      else (start, cnt) :: collapseRuns rest v (start + cnt) 1

/-- Modelled from the spec: partition_to_groups (polars-arrow
sort_partition, not under src/): the run of nulls (at one end of sorted
data) becomes one group and the non-null values are run-collapsed, all
shifted by offset. -/
def partition_to_groups [DecidableEq α] (values : List α) (null_count : ℕ)
    (nulls_first : Bool) (offset : ℕ) : List (ℕ × ℕ) :=
  let vgroups : ℕ → List (ℕ × ℕ) := fun base =>
    match values with
    | [] => []
    | v :: rest => collapseRuns rest v base 1
  if nulls_first then
    (if null_count = 0 then [] else [(offset, null_count)]) ++
      vgroups (offset + null_count)
  else
    vgroups offset ++
      (if null_count = 0 then [] else [(offset + values.length, null_count)])

/-- Embedding of create_groups_from_sorted (into_groups.rs lines 77-147),
single-threaded branch (the multithreaded branch delegates to
create_clean_partitions, code not under src/, and the claims are settled on
the single-threaded path).  Note: the function reads only the FIRST chunk
(downcast_iter().next().unwrap()); buffer slots under nulls are
unobservable and modelled as default. -/
def create_groups_from_sorted [DecidableEq α] [Inhabited α]
    (ca : ChunkedArray α) : List (ℕ × ℕ) :=
  match ca.chunks.head? with
  | none => []
  | some arr =>
      if arr.length = 0 then []
      else
        let null_count := arr.countP (fun o => o.isNone)
        let length := arr.length
        if null_count = length then [(0, length)]
        else
          let nulls_first := decide (arr.head? = some none)
          let buf := arr.map (fun o => o.getD default)
          let values := if nulls_first then buf.drop null_count
            else buf.take (length - null_count)
          partition_to_groups values null_count nulls_first 0

/-- All indices at which a key occurs. -/
def indicesOf [DecidableEq κ] (keys : List κ) (k : κ) : List ℕ :=
  (List.range keys.length).filter (fun i => decide (keys.get? i = some k))

/-- The distinct keys in order of first occurrence. -/
def firstKeys [DecidableEq κ] : List κ → List κ
  | [] => []
  | k :: rest => k :: firstKeys (rest.filter (fun x => decide (x ≠ k)))
termination_by keys => keys.length
decreasing_by
  simp only [List.length_cons]
  exact Nat.lt_succ_of_le (List.length_filter_le _ _)

/-- Modelled from the spec: the single-threaded general hashing path
(polars-core hashing groupby, not under src/): one map from key to
(first_index, members) built in input order; emission order is first
occurrence; all nulls share the sentinel key. -/
def groupby [DecidableEq κ] (keys : List κ) : List (ℕ × List ℕ) :=
  (firstKeys keys).map (fun k => ((indicesOf keys k).headD 0, indicesOf keys k))

/-- The grouping output: contiguous slices or explicit index lists. -/
inductive GroupsProxy where
  | slice : List (ℕ × ℕ) → GroupsProxy
  | idx : List (ℕ × List ℕ) → GroupsProxy
deriving DecidableEq

/-- Embedding of group_tuples for a numeric chunked array (into_groups.rs
lines 154-227), single-threaded paths: the fast path applies under
sorted_path_cond; otherwise the keys (all chunks, nulls as the None
sentinel key) go through the hashing path. -/
def group_tuples [DecidableEq α] [Inhabited α] (ca : ChunkedArray α) : GroupsProxy :=
  if sorted_path_cond ca then .slice (create_groups_from_sorted ca)
  else .idx (groupby ca.chunks.flatten)

/-- The multiset of row indices covered by a grouping, in emission order. -/
def group_cover : GroupsProxy → List ℕ
  | .slice gs => gs.flatMap (fun p => (List.range p.2).map (fun k => p.1 + k))
  | .idx gs => gs.flatMap (fun p => p.2)

/-! ### Order lemmas for the comparators -/

theorem qcmp_swap (a b : ℚ) : qcmp a b = (qcmp b a).swap := by
  unfold qcmp
  rcases lt_trichotomy a b with h | h | h
  · simp [h, not_lt.mpr h.le, Ordering.swap]
  · simp [h, lt_irrefl, Ordering.swap]
  · simp [h, not_lt.mpr h.le, Ordering.swap]

theorem qcmp_eq_iff {a b : ℚ} : qcmp a b = .eq ↔ a = b := by
  unfold qcmp
  split_ifs with h1 h2
  · simp; linarith
  · simp; linarith
  · simp; linarith

theorem qcmp_lt_iff {a b : ℚ} : qcmp a b = .lt ↔ a < b := by
  unfold qcmp
  split_ifs <;> simp_all

theorem nnfCmp_lt_iff {a b : NNF} :
    nnfCmp a b = .lt ↔ (a.band < b.band ∨ (a.band = b.band ∧ a.q < b.q)) := by
  cases a <;> cases b <;>
    simp [nnfCmp, NNF.band, NNF.q, qcmp_lt_iff]

theorem nnfCmp_eq_iff {a b : NNF} :
    nnfCmp a b = .eq ↔ (a.band = b.band ∧ a.q = b.q) := by
  cases a <;> cases b <;>
    simp [nnfCmp, NNF.band, NNF.q, qcmp_eq_iff]

theorem nnfCmp_cases (a b : NNF) :
    nnfCmp a b = .lt ∨ nnfCmp a b = .eq ∨ nnfCmp a b = .gt := by
  rcases nnfCmp a b with _ | _ | _ <;> simp

theorem nnfCmp_swap (a b : NNF) : nnfCmp a b = (nnfCmp b a).swap := by
  cases a <;> cases b <;>
    simp only [nnfCmp, Ordering.swap] <;>
    first
      | rfl
      | exact qcmp_swap _ _

theorem nnfCmp_gt_iff {a b : NNF} :
    nnfCmp a b = .gt ↔ (b.band < a.band ∨ (b.band = a.band ∧ b.q < a.q)) := by
  have hsw : (nnfCmp b a).swap = .gt ↔ nnfCmp b a = .lt := by
    rcases nnfCmp b a with _ | _ | _ <;> simp [Ordering.swap]
  rw [nnfCmp_swap a b, hsw, nnfCmp_lt_iff]

theorem nnfCmp_lt_trans {a b c : NNF} (h1 : nnfCmp a b = .lt) (h2 : nnfCmp b c = .lt) :
    nnfCmp a c = .lt := by
  rw [nnfCmp_lt_iff] at *
  rcases h1 with h1 | ⟨e1, h1⟩ <;> rcases h2 with h2 | ⟨e2, h2⟩
  · exact Or.inl (lt_trans h1 h2)
  · exact Or.inl (e2 ▸ h1)
  · exact Or.inl (e1 ▸ h2)
  · exact Or.inr ⟨e1.trans e2, lt_trans h1 h2⟩

theorem nnfCmp_eq_trans {a b c : NNF} (h1 : nnfCmp a b = .eq) (h2 : nnfCmp b c = .eq) :
    nnfCmp a c = .eq := by
  rw [nnfCmp_eq_iff] at *
  exact ⟨h1.1.trans h2.1, h1.2.trans h2.2⟩

theorem nnfCmp_ne_gt_iff {a b : NNF} :
    nnfCmp a b ≠ .gt ↔ (a.band < b.band ∨ (a.band = b.band ∧ a.q ≤ b.q)) := by
  constructor
  · intro h
    rcases nnfCmp_cases a b with h' | h' | h'
    · rw [nnfCmp_lt_iff] at h'
      rcases h' with h' | ⟨e, h'⟩
      · exact Or.inl h'
      · exact Or.inr ⟨e, le_of_lt h'⟩
    · rw [nnfCmp_eq_iff] at h'
      exact Or.inr ⟨h'.1, le_of_eq h'.2⟩
    · exact absurd h' h
  · intro h h'
    rw [nnfCmp_gt_iff] at h'
    rcases h with h | ⟨e, h⟩ <;> rcases h' with h' | ⟨e', h'⟩
    · omega
    · omega
    · omega
    · exact absurd h' (not_lt.mpr h)

theorem nnfCmp_le_trans {a b c : NNF} (h1 : nnfCmp a b ≠ .gt) (h2 : nnfCmp b c ≠ .gt) :
    nnfCmp a c ≠ .gt := by
  rw [nnfCmp_ne_gt_iff] at *
  rcases h1 with h1 | ⟨e1, h1⟩ <;> rcases h2 with h2 | ⟨e2, h2⟩
  · exact Or.inl (lt_trans h1 h2)
  · exact Or.inl (e2 ▸ h1)
  · exact Or.inl (e1 ▸ h2)
  · exact Or.inr ⟨e1.trans e2, le_trans h1 h2⟩

theorem fpPartialCmp_isSome (a b : FP) (ha : a.isNan = false) (hb : b.isNan = false) :
    (fpPartialCmp a b).isSome = true := by
  cases a <;> cases b <;> simp_all [FP.isNan, fpPartialCmp]

theorem compare_fn_nan_min_swap (a b : FP) :
    compare_fn_nan_min a b = (compare_fn_nan_min b a).swap := by
  cases a <;> cases b <;>
    simp only [compare_fn_nan_min, FP.isNan, fpPartialCmp, Option.getD_some, Ordering.swap] <;>
    first
      | rfl
      | exact nnfCmp_swap _ _

theorem compare_fn_nan_max_swap (a b : FP) :
    compare_fn_nan_max a b = (compare_fn_nan_max b a).swap := by
  cases a <;> cases b <;>
    simp only [compare_fn_nan_max, FP.isNan, fpPartialCmp, Option.getD_some, Ordering.swap] <;>
    first
      | rfl
      | exact nnfCmp_swap _ _

theorem sortBufCmp_swap (a b : FP) :
    sortBufCmp a b = (sortBufCmp b a).swap := by
  cases a <;> cases b <;>
    simp only [sortBufCmp, FP.isNan, fpPartialCmp, Option.getD_some, Ordering.swap] <;>
    first
      | rfl
      | exact nnfCmp_swap _ _

theorem compare_fn_nan_min_lt_trans {a b c : FP} (h1 : compare_fn_nan_min a b = .lt)
    (h2 : compare_fn_nan_min b c = .lt) : compare_fn_nan_min a c = .lt := by
  cases a <;> cases b <;> cases c <;>
    simp_all only [compare_fn_nan_min, FP.isNan, fpPartialCmp, Option.getD_some] <;>
    first
      | exact nnfCmp_lt_trans h1 h2
      | simp at h1
      | simp at h2

theorem compare_fn_nan_max_lt_trans {a b c : FP} (h1 : compare_fn_nan_max a b = .lt)
    (h2 : compare_fn_nan_max b c = .lt) : compare_fn_nan_max a c = .lt := by
  cases a <;> cases b <;> cases c <;>
    simp_all only [compare_fn_nan_max, FP.isNan, fpPartialCmp, Option.getD_some] <;>
    first
      | exact nnfCmp_lt_trans h1 h2
      | simp at h1
      | simp at h2

theorem sortBufCmp_lt_trans {a b c : FP} (h1 : sortBufCmp a b = .lt)
    (h2 : sortBufCmp b c = .lt) : sortBufCmp a c = .lt := by
  cases a <;> cases b <;> cases c <;>
    simp_all only [sortBufCmp, FP.isNan, fpPartialCmp, Option.getD_some] <;>
    first
      | exact nnfCmp_lt_trans h1 h2
      | simp at h1
      | simp at h2

theorem compare_fn_nan_min_eq_trans {a b c : FP} (h1 : compare_fn_nan_min a b = .eq)
    (h2 : compare_fn_nan_min b c = .eq) : compare_fn_nan_min a c = .eq := by
  cases a <;> cases b <;> cases c <;>
    simp_all only [compare_fn_nan_min, FP.isNan, fpPartialCmp, Option.getD_some] <;>
    first
      | exact nnfCmp_eq_trans h1 h2
      | simp at h1
      | simp at h2

theorem compare_fn_nan_max_eq_trans {a b c : FP} (h1 : compare_fn_nan_max a b = .eq)
    (h2 : compare_fn_nan_max b c = .eq) : compare_fn_nan_max a c = .eq := by
  cases a <;> cases b <;> cases c <;>
    simp_all only [compare_fn_nan_max, FP.isNan, fpPartialCmp, Option.getD_some] <;>
    first
      | exact nnfCmp_eq_trans h1 h2
      | simp at h1
      | simp at h2

theorem sortBufCmp_eq_trans {a b c : FP} (h1 : sortBufCmp a b = .eq)
    (h2 : sortBufCmp b c = .eq) : sortBufCmp a c = .eq := by
  cases a <;> cases b <;> cases c <;>
    simp_all only [sortBufCmp, FP.isNan, fpPartialCmp, Option.getD_some] <;>
    first
      | exact nnfCmp_eq_trans h1 h2
      | simp at h1
      | simp at h2

theorem sortBufCmp_le_trans {a b c : FP} (h1 : sortBufCmp a b ≠ .gt)
    (h2 : sortBufCmp b c ≠ .gt) : sortBufCmp a c ≠ .gt := by
  cases a <;> cases b <;> cases c <;>
    simp_all only [sortBufCmp, FP.isNan, fpPartialCmp, Option.getD_some] <;>
    first
      | exact nnfCmp_le_trans h1 h2
      | exact absurd rfl h1
      | exact absurd rfl h2
      | decide

instance : IsTotal FP sortBufLe where
  total a b := by
    unfold sortBufLe
    by_cases h : sortBufCmp a b = .gt
    · right
      rw [sortBufCmp_swap b a, h]
      simp [Ordering.swap]
    · exact Or.inl h

instance : IsTrans FP sortBufLe where
  trans := fun _ _ _ => sortBufCmp_le_trans

theorem sortBufLe_nan_imp {a b : FP} (hle : sortBufLe a b) (ha : a.isNan = true) :
    b.isNan = true := by
  cases a <;> cases b <;> simp_all [sortBufLe, sortBufCmp, FP.isNan]

end Polars

/-! ## Claim C3 -/

/-- C3 counterexample: the claim's formula `right = ceil((window_size+1)/2)`
disagrees with the code at window_size = 4 (an even window): the code
computes right_window = (4+1)/2 = 2, while ceil((4+1)/2) = 3, so at
i = 0, len = 4 the code returns (0, 2) but the claim demands (0, 3). -/
theorem C3_counterexample :
    Polars.det_offsets_center 0 4 4 = (0, 2) ∧
    Polars.det_offsets_center_claimed 0 4 4 = (0, 3) ∧
    Polars.det_offsets_center 0 4 4 ≠ Polars.det_offsets_center_claimed 0 4 4 := by
  refine ⟨rfl, rfl, ?_⟩
  decide

/-- C3 (amended): with right = floor((window_size+1)/2) = ceil(window_size/2)
(not ceil((window_size+1)/2)), for every 0 ≤ i < len and window_size ≥ 1 the
centered offset function returns start = max(0, i - (window_size - right)) and
end = min(len, i + right), and the window length end - start satisfies
0 ≤ end - start ≤ window_size. -/
theorem C3_det_offsets_center_bounds (i ws len : ℕ) (hws : 1 ≤ ws) (hi : i < len) :
    (((Polars.det_offsets_center i ws len).1 : ℤ) =
       max 0 ((i : ℤ) - ((ws : ℤ) - ((ws + 1) / 2 : ℕ)))) ∧
    (Polars.det_offsets_center i ws len).2 = min len (i + (ws + 1) / 2) ∧
    (Polars.det_offsets_center i ws len).1 ≤ (Polars.det_offsets_center i ws len).2 ∧
    (Polars.det_offsets_center i ws len).2 - (Polars.det_offsets_center i ws len).1 ≤ ws := by
  unfold Polars.det_offsets_center
  refine ⟨?_, rfl, ?_, ?_⟩
  · push_cast
    omega
  · simp only
    omega
  · simp only
    omega

/-- C3 witness: the amended theorem evaluated at i = 1, window_size = 4, len = 4. -/
theorem C3_witness :
    (1 ≤ 4 ∧ 1 < 4) ∧
    ((((Polars.det_offsets_center 1 4 4).1 : ℤ) =
       max 0 ((1 : ℤ) - ((4 : ℤ) - ((4 + 1) / 2 : ℕ)))) ∧
    (Polars.det_offsets_center 1 4 4).2 = min 4 (1 + (4 + 1) / 2) ∧
    (Polars.det_offsets_center 1 4 4).1 ≤ (Polars.det_offsets_center 1 4 4).2 ∧
    (Polars.det_offsets_center 1 4 4).2 - (Polars.det_offsets_center 1 4 4).1 ≤ 4) :=
  ⟨⟨by decide, by decide⟩, C3_det_offsets_center_bounds 1 4 4 (by decide) (by decide)⟩

/-! ## Claim C5 -/

/-- C5 counterexample: the claim says compare_fn_nan_min orders NaN strictly
greater than every non-NaN float, but the code's (true, false) arm returns
Less: at a = NaN, b = 0.0 the comparator yields Less, not Greater. -/
theorem C5_counterexample :
    Polars.compare_fn_nan_min Polars.FP.nan (Polars.FP.num (Polars.NNF.fin 0)) =
      Ordering.lt ∧
    Polars.compare_fn_nan_min Polars.FP.nan (Polars.FP.num (Polars.NNF.fin 0)) ≠
      Ordering.gt := by
  constructor
  · rfl
  · decide

/-- C5 (amended): compare_fn_nan_min orders any NaN strictly LESS than every
non-NaN float and compare_fn_nan_max orders any NaN strictly GREATER than
every non-NaN float (the directions are swapped relative to the claim);
two NaNs compare equal under both; and on integer types both comparators
coincide with the natural total order. -/
theorem C5_comparator_directions :
    (∀ x : Polars.NNF,
      Polars.compare_fn_nan_min Polars.FP.nan (Polars.FP.num x) = Ordering.lt ∧
      Polars.compare_fn_nan_min (Polars.FP.num x) Polars.FP.nan = Ordering.gt ∧
      Polars.compare_fn_nan_max Polars.FP.nan (Polars.FP.num x) = Ordering.gt ∧
      Polars.compare_fn_nan_max (Polars.FP.num x) Polars.FP.nan = Ordering.lt) ∧
    (Polars.compare_fn_nan_min Polars.FP.nan Polars.FP.nan = Ordering.eq ∧
     Polars.compare_fn_nan_max Polars.FP.nan Polars.FP.nan = Ordering.eq) ∧
    (∀ a b : ℤ,
      (Polars.compare_fn_nan_min_int a b = Ordering.lt ↔ a < b) ∧
      (Polars.compare_fn_nan_min_int a b = Ordering.eq ↔ a = b) ∧
      (Polars.compare_fn_nan_min_int a b = Ordering.gt ↔ b < a) ∧
      Polars.compare_fn_nan_max_int a b = Polars.compare_fn_nan_min_int a b) := by
  refine ⟨fun x => ⟨rfl, rfl, rfl, rfl⟩, ⟨rfl, rfl⟩, fun a b => ⟨?_, ?_, ?_, rfl⟩⟩ <;>
    (unfold Polars.compare_fn_nan_min_int Polars.intPartialCmp
     simp only [Option.getD_some]
     split_ifs <;> simp_all <;> omega)

/-! ## Claim C10 -/

/-- C10: each of the two NaN-aware comparators and the inline sort_buf
comparator is a total function on all float values (the unsafe
unwrap_unchecked of partial_cmp is only reached when neither argument is
NaN, where partial_cmp is always Some); each defines a total order in the
Rust sort_by sense: comparisons are antisymmetric (cmp a b is the swap of
cmp b a, so exactly one of lt/eq/gt holds consistently) and transitive;
consequently sort_buf produces a permutation of its input in which every
NaN occupies final positions (no NaN ever precedes a non-NaN). -/
theorem C10_comparators_and_sort_buf :
    (∀ a b : Polars.FP, a.isNan = false → b.isNan = false →
      (Polars.fpPartialCmp a b).isSome = true) ∧
    (∀ a b : Polars.FP,
      Polars.compare_fn_nan_min a b = (Polars.compare_fn_nan_min b a).swap ∧
      Polars.compare_fn_nan_max a b = (Polars.compare_fn_nan_max b a).swap ∧
      Polars.sortBufCmp a b = (Polars.sortBufCmp b a).swap) ∧
    (∀ a b c : Polars.FP,
      (Polars.compare_fn_nan_min a b = .lt → Polars.compare_fn_nan_min b c = .lt →
        Polars.compare_fn_nan_min a c = .lt) ∧
      (Polars.compare_fn_nan_max a b = .lt → Polars.compare_fn_nan_max b c = .lt →
        Polars.compare_fn_nan_max a c = .lt) ∧
      (Polars.sortBufCmp a b = .lt → Polars.sortBufCmp b c = .lt →
        Polars.sortBufCmp a c = .lt) ∧
      (Polars.compare_fn_nan_min a b = .eq → Polars.compare_fn_nan_min b c = .eq →
        Polars.compare_fn_nan_min a c = .eq) ∧
      (Polars.compare_fn_nan_max a b = .eq → Polars.compare_fn_nan_max b c = .eq →
        Polars.compare_fn_nan_max a c = .eq) ∧
      (Polars.sortBufCmp a b = .eq → Polars.sortBufCmp b c = .eq →
        Polars.sortBufCmp a c = .eq)) ∧
    (∀ l : List Polars.FP,
      (Polars.sort_buf l).Perm l ∧
      ∀ i j : ℕ, i < j → j < (Polars.sort_buf l).length →
        ((Polars.sort_buf l).getD i Polars.FP.nan).isNan = true →
        ((Polars.sort_buf l).getD j Polars.FP.nan).isNan = true) := by
  refine ⟨Polars.fpPartialCmp_isSome, ?_, ?_, ?_⟩
  · exact fun a b => ⟨Polars.compare_fn_nan_min_swap a b,
      Polars.compare_fn_nan_max_swap a b, Polars.sortBufCmp_swap a b⟩
  · exact fun a b c =>
      ⟨Polars.compare_fn_nan_min_lt_trans, Polars.compare_fn_nan_max_lt_trans,
       Polars.sortBufCmp_lt_trans, Polars.compare_fn_nan_min_eq_trans,
       Polars.compare_fn_nan_max_eq_trans, Polars.sortBufCmp_eq_trans⟩
  · intro l
    constructor
    · exact List.perm_insertionSort Polars.sortBufLe l
    · intro i j hij hj hnan
      have hsorted : List.Sorted Polars.sortBufLe (Polars.sort_buf l) :=
        List.sorted_insertionSort Polars.sortBufLe l
      have hi : i < (Polars.sort_buf l).length := lt_trans hij hj
      have hpair := (List.pairwise_iff_getElem.mp hsorted) i j hi hj hij
      have hgi : (Polars.sort_buf l).getD i Polars.FP.nan = (Polars.sort_buf l)[i] := by
        rw [List.getD_eq_getElem?_getD, List.getElem?_eq_getElem hi]
        rfl
      have hgj : (Polars.sort_buf l).getD j Polars.FP.nan = (Polars.sort_buf l)[j] := by
        rw [List.getD_eq_getElem?_getD, List.getElem?_eq_getElem hj]
        rfl
      rw [hgi] at hnan
      rw [hgj]
      exact Polars.sortBufLe_nan_imp hpair hnan

/-- C10 witness: totality, transitivity and the sort_buf NaN-suffix property
instantiated at concrete inputs. -/
theorem C10_witness :
    (Polars.fpPartialCmp (Polars.FP.num (Polars.NNF.fin 0))
        (Polars.FP.num Polars.NNF.posinf)).isSome = true ∧
    Polars.compare_fn_nan_min (Polars.FP.num Polars.NNF.neginf)
        (Polars.FP.num Polars.NNF.posinf) = .lt ∧
    ((Polars.sort_buf [Polars.FP.nan, Polars.FP.nan]).getD 1 Polars.FP.nan).isNan = true :=
  ⟨C10_comparators_and_sort_buf.1 (Polars.FP.num (Polars.NNF.fin 0))
      (Polars.FP.num Polars.NNF.posinf) rfl rfl,
   (C10_comparators_and_sort_buf.2.2.1 (Polars.FP.num Polars.NNF.neginf)
      (Polars.FP.num Polars.NNF.negzero) (Polars.FP.num Polars.NNF.posinf)).1 rfl rfl,
   (C10_comparators_and_sort_buf.2.2.2 [Polars.FP.nan, Polars.FP.nan]).2 0 1
      (by decide) (by decide) (by decide)⟩

/-! ## Claim C6 -/

/-- C6: on the column with values buffer [1, 2, 3, 4] and validity
[true, false, true, true] (the logical column [1.0, null, 3.0, 4.0]),
rolling_sum with window_size 2, min_periods 2, trailing alignment yields
[null, null, null, 7.0], and rolling_sum with window_size 4, min_periods 1,
centered alignment yields [1.0, 4.0, 8.0, 7.0].  (Scalars are exact: all
involved doubles are small integers.) -/
theorem C6_rolling_sum_scenarios :
    Polars.rolling_sum
        (Polars.PrimArray.mk [(1 : ℤ), 2, 3, 4] (some [true, false, true, true]))
        2 2 false none =
      Except.ok [none, none, none, some 7] ∧
    Polars.rolling_sum
        (Polars.PrimArray.mk [(1 : ℤ), 2, 3, 4] (some [true, false, true, true]))
        4 1 true none =
      Except.ok [some 1, some 4, some 8, some 7] := by
  constructor
  · rfl
  · rfl

/-! ## Claim C7 -/

/-- C7: for every column with a validity bitmap, every window spec and
both alignments, calling rolling_sum, rolling_mean or rolling_var with
weights supplied is a panic (modelled as the weightsNotSupported error),
raised before any output list is produced. -/
theorem C7_weights_panic {α : Type} [Zero α] [One α] [Add α] [Sub α] [Mul α] [Div α]
    (values : List α) (v : List Bool) (ws mp : ℕ) (center : Bool) (w : List ℚ)
    (hbitmap : (Polars.PrimArray.mk values (some v)).validity = some v) :
    Polars.rolling_sum (Polars.PrimArray.mk values (some v)) ws mp center (some w) =
      Except.error Polars.KernelPanic.weightsNotSupported ∧
    Polars.rolling_mean (Polars.PrimArray.mk values (some v)) ws mp center (some w) =
      Except.error Polars.KernelPanic.weightsNotSupported ∧
    Polars.rolling_var (Polars.PrimArray.mk values (some v)) ws mp center (some w) =
      Except.error Polars.KernelPanic.weightsNotSupported := by
  exact ⟨rfl, rfl, rfl⟩

/-- C7 witness: the weights panic at a concrete nullable column. -/
theorem C7_witness :
    (Polars.PrimArray.mk [(1 : ℤ), 2] (some [true, false])).validity =
        some [true, false] ∧
    Polars.rolling_sum (Polars.PrimArray.mk [(1 : ℤ), 2] (some [true, false]))
        2 1 false (some [1, 1]) =
      Except.error Polars.KernelPanic.weightsNotSupported :=
  ⟨rfl, (C7_weights_panic [(1 : ℤ), 2] [true, false] 2 1 false [1, 1] rfl).1⟩

/-! ## Claim C9 -/

/-- C9: the nulls-module kernels require the array to carry a validity
bitmap: when validity is absent (which the data model reads as "all
valid"), rolling_sum, rolling_mean and rolling_var panic on unwrapping the
bitmap (modelled as the validityUnwrap error) instead of computing. -/
theorem C9_validity_unwrap_panic {α : Type} [Zero α] [One α] [Add α] [Sub α] [Mul α] [Div α]
    (arr : Polars.PrimArray α) (ws mp : ℕ) (center : Bool)
    (hnone : arr.validity = none) :
    Polars.rolling_sum arr ws mp center none =
      Except.error Polars.KernelPanic.validityUnwrap ∧
    Polars.rolling_mean arr ws mp center none =
      Except.error Polars.KernelPanic.validityUnwrap ∧
    Polars.rolling_var arr ws mp center none =
      Except.error Polars.KernelPanic.validityUnwrap := by
  obtain ⟨values, validity⟩ := arr
  cases hnone
  exact ⟨rfl, rfl, rfl⟩

/-- C9 witness: the unwrap panic at a concrete bitmap-less column. -/
theorem C9_witness :
    (Polars.PrimArray.mk [(1 : ℤ), 2, 3] none).validity = none ∧
    Polars.rolling_sum (Polars.PrimArray.mk [(1 : ℤ), 2, 3] none) 2 1 false none =
      Except.error Polars.KernelPanic.validityUnwrap :=
  ⟨rfl, (C9_validity_unwrap_panic (Polars.PrimArray.mk [(1 : ℤ), 2, 3] none)
      2 1 false rfl).1⟩

/-! ## Claim C1 -/

/-- C1: claim right, code wrong (precedence bug).  The Rust condition
parses as ascending || (descending && single-chunk), so a column flagged
Ascending but split over two chunks takes the sorted fast path, while the
claim (and spec) demand the hashing path for any multi-chunk column.
The concrete input: an Ascending-flagged two-chunk column. -/
theorem C1_sorted_path_condition_bug :
    Polars.sorted_path_cond
        (Polars.ChunkedArray.mk [[some (1 : ℤ), some 2], [some 3]]
          Polars.IsSorted.ascending) = true ∧
    Polars.sorted_path_claimed
        (Polars.ChunkedArray.mk [[some (1 : ℤ), some 2], [some 3]]
          Polars.IsSorted.ascending) = false ∧
    (∃ gs, Polars.group_tuples
        (Polars.ChunkedArray.mk [[some (1 : ℤ), some 2], [some 3]]
          Polars.IsSorted.ascending) = Polars.GroupsProxy.slice gs) := by
  exact ⟨rfl, rfl, [(0, 1), (1, 1)], rfl⟩

/-! ## Claim C4 -/

/-- C4: claim right, code wrong.  Because of the C1 condition bug the
sorted fast path fires on a multi-chunk Ascending column and
create_groups_from_sorted reads only the first chunk, so group_tuples
returns groups covering only indices 0 and 1 of the 3-row column
[1, 2 | 3]: index 2 is silently dropped, violating the index coverage
law. -/
theorem C4_coverage_violated :
    Polars.group_tuples
        (Polars.ChunkedArray.mk [[some (1 : ℤ), some 2], [some 3]]
          Polars.IsSorted.ascending) =
      Polars.GroupsProxy.slice [(0, 1), (1, 1)] ∧
    Polars.group_cover
        (Polars.group_tuples
          (Polars.ChunkedArray.mk [[some (1 : ℤ), some 2], [some 3]]
            Polars.IsSorted.ascending)) = [0, 1] ∧
    Polars.ca_len
        (Polars.ChunkedArray.mk [[some (1 : ℤ), some 2], [some 3]]
          Polars.IsSorted.ascending) = 3 ∧
    ¬ (2 ∈ Polars.group_cover
        (Polars.group_tuples
          (Polars.ChunkedArray.mk [[some (1 : ℤ), some 2], [some 3]]
            Polars.IsSorted.ascending))) := by
  refine ⟨rfl, rfl, rfl, ?_⟩
  decide

/-! ## Helper lemmas for the rolling null law -/

namespace Polars

theorem nullsIn_le (valid : List Bool) : ∀ (n off : ℕ), nullsIn valid off n ≤ n := by
  intro n
  induction n with
  | zero => intro off; simp [nullsIn]
  | succ n ih =>
    intro off
    simp only [nullsIn]
    have := ih (off + 1)
    split <;> omega

theorem validCount_add_nullsIn (valid : List Bool) :
    ∀ (n off : ℕ), validCount valid off n + nullsIn valid off n = n := by
  intro n
  induction n with
  | zero => intro off; simp [validCount, nullsIn]
  | succ n ih =>
    intro off
    simp only [validCount, nullsIn]
    have := ih (off + 1)
    split <;> omega

theorem nullsIn_eq_zero_iff (valid : List Bool) :
    ∀ (n off : ℕ), nullsIn valid off n = 0 ↔ ∀ k, k < n → valid.getD (off + k) true = true := by
  intro n
  induction n with
  | zero => intro off; simp [nullsIn]
  | succ n ih =>
    intro off
    simp only [nullsIn]
    constructor
    · intro h k hk
      rcases Nat.eq_zero_or_pos k with hk0 | hkpos
      · subst hk0
        simp only [Nat.add_zero]
        by_contra hfalse
        simp only [Bool.not_eq_true] at hfalse
        rw [hfalse] at h
        simp at h
      · obtain ⟨m, rfl⟩ : ∃ m, k = m + 1 := ⟨k - 1, by omega⟩
        have h2 : nullsIn valid (off + 1) n = 0 := by
          split at h <;> omega
        have := (ih (off + 1)).mp h2 m (by omega)
        rw [show off + (m + 1) = off + 1 + m by omega]
        exact this
    · intro h
      have h0 := h 0 (by omega)
      simp only [Nat.add_zero] at h0
      rw [h0]
      simp only [if_true]
      rw [Nat.zero_add]
      exact (ih (off + 1)).mpr (fun k hk => by
        rw [show off + 1 + k = off + (k + 1) by omega]
        exact h (k + 1) (by omega))

theorem keptVals_length {α : Type} (valid : List Bool) :
    ∀ (vals : List α) (off : ℕ),
      (keptVals valid off vals).length = validCount valid off vals.length := by
  intro vals
  induction vals with
  | nil => intro off; simp [keptVals, validCount]
  | cons v rest ih =>
    intro off
    simp only [keptVals, List.length_cons, validCount]
    split <;> simp [ih (off + 1)] <;> omega

theorem keptVals_all {α : Type} (valid : List Bool) :
    ∀ (vals : List α) (off : ℕ),
      (∀ k, k < vals.length → valid.getD (off + k) true = true) →
      keptVals valid off vals = vals := by
  intro vals
  induction vals with
  | nil => intro off _; simp [keptVals]
  | cons v rest ih =>
    intro off h
    have h0 := h 0 (by simp)
    simp only [Nat.add_zero] at h0
    simp only [keptVals, h0, if_true]
    rw [ih (off + 1) (fun k hk => by
      rw [show off + 1 + k = off + (k + 1) by omega]
      exact h (k + 1) (by simp only [List.length_cons]; omega))]

theorem getD_replicate_true : ∀ (n j : ℕ), (List.replicate n true).getD j true = true := by
  intro n
  induction n with
  | zero => intro j; simp [List.getD]
  | succ n ih =>
    intro j
    cases j with
    | zero => simp [List.replicate]
    | succ j =>
      simp only [List.replicate]
      rw [List.getD_cons_succ]
      exact ih j

theorem setWhileShort_length (p : ℕ → Bool) :
    ∀ (idxs : List ℕ) (v : List Bool), (setWhileShort p v idxs).length = v.length := by
  intro idxs
  induction idxs with
  | nil => intro v; rfl
  | cons i rest ih =>
    intro v
    simp only [setWhileShort]
    split
    · rw [ih (v.set i false), List.length_set]
    · rfl

theorem getD_set_false {v : List Bool} {i j : ℕ} (h : v.getD j true = false) :
    (v.set i false).getD j true = false := by
  rw [List.getD_eq_getElem?_getD] at *
  rw [List.getElem?_set]
  split
  · split
    · rfl
    · subst_vars
      rw [List.getElem?_eq_none (by omega)] at h
      simp at h
  · exact h

theorem getD_set_self {v : List Bool} {j : ℕ} (h : j < v.length) :
    (v.set j false).getD j true = false := by
  rw [List.getD_eq_getElem?_getD, List.getElem?_set]
  simp [h]

theorem setWhileShort_preserves_false (p : ℕ → Bool) :
    ∀ (idxs : List ℕ) (v : List Bool) (j : ℕ),
      v.getD j true = false → (setWhileShort p v idxs).getD j true = false := by
  intro idxs
  induction idxs with
  | nil => intro v j h; exact h
  | cons i rest ih =>
    intro v j h
    simp only [setWhileShort]
    split
    · exact ih (v.set i false) j (getD_set_false h)
    · exact h

theorem getD_set_false_cases {v : List Bool} {i j : ℕ}
    (h : (v.set i false).getD j true = false) :
    j = i ∨ v.getD j true = false := by
  by_cases hij : j = i
  · exact Or.inl hij
  · right
    rw [List.getD_eq_getElem?_getD] at *
    rw [List.getElem?_set] at h
    rw [if_neg (show ¬ i = j from fun hh => hij hh.symm)] at h
    exact h

theorem setWhileShort_false_imp (p : ℕ → Bool) :
    ∀ (idxs : List ℕ) (v : List Bool) (j : ℕ),
      (setWhileShort p v idxs).getD j true = false →
      v.getD j true = false ∨ p j = true := by
  intro idxs
  induction idxs with
  | nil => intro v j h; exact Or.inl h
  | cons i rest ih =>
    intro v j h
    simp only [setWhileShort] at h
    split at h
    · rcases ih (v.set i false) j h with h2 | h2
      · rcases getD_set_false_cases h2 with rfl | h3
        · right; assumption
        · exact Or.inl h3
      · exact Or.inr h2
    · exact Or.inl h

theorem setWhileShort_sets_head (p : ℕ → Bool) (j : ℕ) :
    ∀ (n a : ℕ) (v : List Bool), a ≤ j → j < a + n → j < v.length →
      (∀ k, a ≤ k → k ≤ j → p k = true) →
      (setWhileShort p v (List.range' a n)).getD j true = false := by
  intro n
  induction n with
  | zero => intro a v h1 h2; omega
  | succ n ih =>
    intro a v h1 h2 hlen hp
    rw [List.range'_succ]
    simp only [setWhileShort]
    rw [hp a (le_refl a) h1]
    simp only [if_true]
    rcases Nat.eq_or_lt_of_le h1 with rfl | hlt
    · exact setWhileShort_preserves_false p _ _ _ (getD_set_self hlen)
    · exact ih (a + 1) (v.set a false) hlt (by omega) (by rw [List.length_set]; exact hlen)
        (fun k hk1 hk2 => hp k (by omega) hk2)

theorem range_reverse_succ (n : ℕ) :
    (List.range (n + 1)).reverse = n :: (List.range n).reverse := by
  rw [List.range_succ, List.reverse_append]
  rfl

theorem setWhileShort_sets_tail (p : ℕ → Bool) (j : ℕ) :
    ∀ (len : ℕ) (v : List Bool), j < len → j < v.length →
      (∀ k, j ≤ k → k < len → p k = true) →
      (setWhileShort p v (List.range len).reverse).getD j true = false := by
  intro len
  induction len with
  | zero => intro v h1; omega
  | succ len ih =>
    intro v h1 hlen hp
    rw [range_reverse_succ]
    simp only [setWhileShort]
    rw [hp len (by omega) (by omega)]
    simp only [if_true]
    rcases Nat.eq_or_lt_of_le (Nat.lt_succ_iff.mp h1) with rfl | hlt
    · exact setWhileShort_preserves_false p _ _ _ (getD_set_self hlen)
    · exact ih (v.set len false) hlt (by rw [List.length_set]; exact hlen)
        (fun k hk1 hk2 => hp k hk1 (by omega))

end Polars

namespace Polars

section NullLaw

variable {α : Type} [Zero α] [One α] [Add α] [Sub α] [Mul α] [Div α]

theorem compute_sum_eq_none_iff (vals : List α) (valid : List Bool) (off mp : ℕ) :
    compute_sum vals valid off mp = none ↔
      (nullsIn valid off vals.length ≠ 0 ∧
       vals.length - nullsIn valid off vals.length < mp) := by
  unfold compute_sum
  dsimp only
  split_ifs with h1 h2 <;> simp_all

theorem compute_mean_eq_none_iff (vals : List α) (valid : List Bool) (off mp : ℕ) :
    compute_mean vals valid off mp = none ↔
      (nullsIn valid off vals.length ≠ 0 ∧
       vals.length - nullsIn valid off vals.length < mp) := by
  unfold compute_mean
  dsimp only
  split_ifs with h1 h2 <;> simp_all

theorem compute_var_eq_none_iff (vals : List α) (valid : List Bool) (off mp : ℕ) :
    compute_var vals valid off mp = none ↔
      (nullsIn valid off vals.length ≠ 0 ∧
       vals.length - nullsIn valid off vals.length < mp) := by
  unfold compute_var
  dsimp only
  split_ifs with h1 h2
  · simp_all
  · simp_all
  · rcases hm : compute_mean vals valid off mp with _ | mean
    · rw [compute_mean_eq_none_iff] at hm
      exact absurd hm.2 h2
    · simp_all


theorem cv_false_imp {mp len ws : ℕ} {fo : ℕ → ℕ → ℕ → ℕ × ℕ} {idx : ℕ}
    (h : (out_validity mp len ws fo).getD idx true = false) :
    winLen fo ws len idx < mp := by
  unfold out_validity create_validity at h
  split_ifs at h with hmp
  · rcases setWhileShort_false_imp _ _ _ _ h with h2 | h2
    · rcases setWhileShort_false_imp _ _ _ _ h2 with h3 | h3
      · rw [getD_replicate_true] at h3
        cases h3
      · exact of_decide_eq_true h3
    · exact of_decide_eq_true h2
  · rw [getD_replicate_true] at h
    cases h

theorem cv_false_of {mp len ws : ℕ} {fo : ℕ → ℕ → ℕ → ℕ × ℕ} {idx : ℕ}
    (hmp : 1 < mp) (hidx : idx < len)
    (hcov : (∀ k, k ≤ idx → winLen fo ws len k < mp) ∨
            (∀ k, idx ≤ k → k < len → winLen fo ws len k < mp)) :
    (out_validity mp len ws fo).getD idx true = false := by
  unfold out_validity create_validity
  rw [if_pos hmp]
  simp only
  rcases hcov with hcov | hcov
  · apply setWhileShort_preserves_false
    rw [List.range_eq_range']
    apply setWhileShort_sets_head _ idx len 0 _ (by omega) (by omega)
      (by rw [List.length_replicate]; exact hidx)
    intro k _ hk2
    exact decide_eq_true (hcov k hk2)
  · apply setWhileShort_sets_tail _ idx len _ hidx
    · rw [setWhileShort_length, List.length_replicate]
      exact hidx
    · intro k hk1 hk2
      exact decide_eq_true (hcov k hk1 hk2)

theorem rolling_apply_getD (agg : List α → List Bool → ℕ → ℕ → Option α)
    (values : List α) (valid : List Bool) (ws mp : ℕ)
    (fo : ℕ → ℕ → ℕ → ℕ × ℕ) (i : ℕ) (hi : i < values.length) :
    (rolling_apply agg values valid ws mp fo).getD i none =
      (match agg ((values.drop (fo i ws values.length).1).take
            ((fo i ws values.length).2 - (fo i ws values.length).1)) valid
            (fo i ws values.length).1 mp with
       | some v =>
           if (out_validity mp values.length ws fo).getD i true
           then some v else none
       | none => none) := by
  unfold rolling_apply
  rw [List.getD_eq_getElem?_getD, List.getElem?_map, List.getElem?_range hi]
  rfl

theorem slice_length (values : List α) (s e : ℕ)
    (hse : s ≤ e) (he : e ≤ values.length) :
    ((values.drop s).take (e - s)).length = e - s := by
  rw [List.length_take, List.length_drop]
  omega

/-- The core of the window null-count law: with a well-behaved offset
function (windows in bounds, nonempty, and quasiconcave window length),
an output cell of rolling_apply is null exactly when the window holds
fewer valid values than min_periods. -/
theorem rolling_apply_null_iff
    (agg : List α → List Bool → ℕ → ℕ → Option α)
    (aggNone : ∀ (vals : List α) (valid : List Bool) (off mp : ℕ),
      agg vals valid off mp = none ↔
        (nullsIn valid off vals.length ≠ 0 ∧
         vals.length - nullsIn valid off vals.length < mp))
    (values : List α) (valid : List Bool) (ws mp : ℕ)
    (fo : ℕ → ℕ → ℕ → ℕ × ℕ) (i : ℕ) (hi : i < values.length)
    (hB : ∀ j, j < values.length →
      (fo j ws values.length).1 ≤ (fo j ws values.length).2 ∧
      (fo j ws values.length).2 ≤ values.length ∧
      1 ≤ winLen fo ws values.length j)
    (hQC : ∀ a j b, a ≤ j → j ≤ b → b < values.length →
      mp ≤ winLen fo ws values.length a → mp ≤ winLen fo ws values.length b →
      mp ≤ winLen fo ws values.length j) :
    ((rolling_apply agg values valid ws mp fo).getD i none = none ↔
      validCount valid (fo i ws values.length).1 (winLen fo ws values.length i) < mp) := by
  obtain ⟨hse, he, hpos⟩ := hB i hi
  set s := (fo i ws values.length).1 with hs
  set e := (fo i ws values.length).2 with he2
  have hwl : winLen fo ws values.length i = e - s := rfl
  have hsl : ((values.drop s).take (e - s)).length = e - s := slice_length values s e hse he
  have hsum := validCount_add_nullsIn valid (e - s) s
  have hnle := nullsIn_le valid (e - s) s
  rw [rolling_apply_getD agg values valid ws mp fo i hi, hwl]
  rcases hagg : agg ((values.drop s).take (e - s)) valid s mp with _ | v
  · rw [aggNone, hsl] at hagg
    simp only [true_iff]
    omega
  · have hnotnone : ¬ (nullsIn valid s (e - s) ≠ 0 ∧
        (e - s) - nullsIn valid s (e - s) < mp) := by
      intro hc
      have h2 : agg ((values.drop s).take (e - s)) valid s mp = none := by
        rw [aggNone, hsl]
        exact hc
      rw [hagg] at h2
      cases h2
    cases hcv : (out_validity mp values.length ws fo).getD i true with
    | false =>
      simp only [Bool.false_eq_true, if_false, true_iff]
      have hwlt := cv_false_imp hcv
      rw [hwl] at hwlt
      omega
    | true =>
      simp only [if_true]
      constructor
      · intro h
        cases h
      · intro hv
        exfalso
        by_cases hnz : nullsIn valid s (e - s) = 0
        · have hwlt : winLen fo ws values.length i < mp := by
            rw [hwl]
            omega
          have hmp2 : 1 < mp := by
            rw [hwl] at hpos
            rw [hwl] at hwlt
            omega
          by_cases hhead : ∀ k, k ≤ i → winLen fo ws values.length k < mp
          · have hfalse := cv_false_of hmp2 hi (Or.inl hhead)
            rw [hfalse] at hcv
            cases hcv
          · push_neg at hhead
            obtain ⟨a, ha1, ha2⟩ := hhead
            have htail : ∀ k, i ≤ k → k < values.length →
                winLen fo ws values.length k < mp := by
              intro k hk1 hk2
              by_contra hb
              push_neg at hb
              exact absurd (hQC a i k ha1 hk1 hk2 ha2 hb) (not_le.mpr hwlt)
            have hfalse := cv_false_of hmp2 hi (Or.inr htail)
            rw [hfalse] at hcv
            cases hcv
        · exact hnotnone ⟨hnz, by omega⟩

end NullLaw

end Polars

namespace Polars

theorem det_offsets_props (ws len : ℕ) (hws : 1 ≤ ws) :
    (∀ j, j < len →
      (det_offsets j ws len).1 ≤ (det_offsets j ws len).2 ∧
      (det_offsets j ws len).2 ≤ len ∧
      1 ≤ winLen det_offsets ws len j) ∧
    (∀ mp a j b, a ≤ j → j ≤ b → b < len →
      mp ≤ winLen det_offsets ws len a → mp ≤ winLen det_offsets ws len b →
      mp ≤ winLen det_offsets ws len j) := by
  unfold winLen det_offsets
  constructor
  · intro j hj
    simp only
    omega
  · intro mp a j b h1 h2 h3 h4 h5
    simp only at *
    omega

theorem det_offsets_center_props (ws len : ℕ) (hws : 1 ≤ ws) :
    (∀ j, j < len →
      (det_offsets_center j ws len).1 ≤ (det_offsets_center j ws len).2 ∧
      (det_offsets_center j ws len).2 ≤ len ∧
      1 ≤ winLen det_offsets_center ws len j) ∧
    (∀ mp a j b, a ≤ j → j ≤ b → b < len →
      mp ≤ winLen det_offsets_center ws len a →
      mp ≤ winLen det_offsets_center ws len b →
      mp ≤ winLen det_offsets_center ws len j) := by
  unfold winLen det_offsets_center
  constructor
  · intro j hj
    simp only
    omega
  · intro mp a j b h1 h2 h3 h4 h5
    simp only at *
    omega

end Polars

/-! ## Claim C2 -/

/-- C2: the window null-count law.  For every column with a validity
bitmap, every window_size >= 1, every min_periods, both alignments and all
three null-aware kernels (sum, mean, var), the kernel returns Ok and its
output at position i is null if and only if the number of valid source
values inside the window det_offsets(i) (resp. det_offsets_center(i)) is
strictly less than min_periods.  In particular the min_periods > 1
boundary precomputation of create_validity and the no-null fast branches
of compute_sum/mean/var never change this outcome. -/
theorem C2_window_null_count_law {α : Type} [Zero α] [One α] [Add α] [Sub α] [Mul α] [Div α]
    (values : List α) (valid : List Bool) (ws mp : ℕ) (center : Bool) (i : ℕ)
    (hlen : valid.length = values.length) (hws : 1 ≤ ws) (hi : i < values.length) :
    (Polars.rolling_sum (Polars.PrimArray.mk values (some valid)) ws mp center none =
      Except.ok (Polars.rolling_apply Polars.compute_sum values valid ws mp
        (if center then Polars.det_offsets_center else Polars.det_offsets)) ∧
     Polars.rolling_mean (Polars.PrimArray.mk values (some valid)) ws mp center none =
      Except.ok (Polars.rolling_apply Polars.compute_mean values valid ws mp
        (if center then Polars.det_offsets_center else Polars.det_offsets)) ∧
     Polars.rolling_var (Polars.PrimArray.mk values (some valid)) ws mp center none =
      Except.ok (Polars.rolling_apply Polars.compute_var values valid ws mp
        (if center then Polars.det_offsets_center else Polars.det_offsets))) ∧
    ((Polars.rolling_apply Polars.compute_sum values valid ws mp
        (if center then Polars.det_offsets_center else Polars.det_offsets)).getD i none =
          none ↔
      Polars.validCount valid
        (((if center then Polars.det_offsets_center else Polars.det_offsets))
          i ws values.length).1
        (Polars.winLen (if center then Polars.det_offsets_center else Polars.det_offsets)
          ws values.length i) < mp) ∧
    ((Polars.rolling_apply Polars.compute_mean values valid ws mp
        (if center then Polars.det_offsets_center else Polars.det_offsets)).getD i none =
          none ↔
      Polars.validCount valid
        (((if center then Polars.det_offsets_center else Polars.det_offsets))
          i ws values.length).1
        (Polars.winLen (if center then Polars.det_offsets_center else Polars.det_offsets)
          ws values.length i) < mp) ∧
    ((Polars.rolling_apply Polars.compute_var values valid ws mp
        (if center then Polars.det_offsets_center else Polars.det_offsets)).getD i none =
          none ↔
      Polars.validCount valid
        (((if center then Polars.det_offsets_center else Polars.det_offsets))
          i ws values.length).1
        (Polars.winLen (if center then Polars.det_offsets_center else Polars.det_offsets)
          ws values.length i) < mp) := by
  have hBt := fun hh => (Polars.det_offsets_props ws values.length hh).1
  have hQt := fun hh => (Polars.det_offsets_props ws values.length hh).2
  have hBc := fun hh => (Polars.det_offsets_center_props ws values.length hh).1
  have hQc := fun hh => (Polars.det_offsets_center_props ws values.length hh).2
  cases center with
  | false =>
    simp only [Bool.false_eq_true, if_false]
    exact ⟨⟨rfl, rfl, rfl⟩,
      Polars.rolling_apply_null_iff Polars.compute_sum
        Polars.compute_sum_eq_none_iff values valid ws mp Polars.det_offsets i hi
        (hBt hws) (fun a j b => hQt hws mp a j b),
      Polars.rolling_apply_null_iff Polars.compute_mean
        Polars.compute_mean_eq_none_iff values valid ws mp Polars.det_offsets i hi
        (hBt hws) (fun a j b => hQt hws mp a j b),
      Polars.rolling_apply_null_iff Polars.compute_var
        Polars.compute_var_eq_none_iff values valid ws mp Polars.det_offsets i hi
        (hBt hws) (fun a j b => hQt hws mp a j b)⟩
  | true =>
    simp only [if_true]
    exact ⟨⟨rfl, rfl, rfl⟩,
      Polars.rolling_apply_null_iff Polars.compute_sum
        Polars.compute_sum_eq_none_iff values valid ws mp Polars.det_offsets_center i hi
        (hBc hws) (fun a j b => hQc hws mp a j b),
      Polars.rolling_apply_null_iff Polars.compute_mean
        Polars.compute_mean_eq_none_iff values valid ws mp Polars.det_offsets_center i hi
        (hBc hws) (fun a j b => hQc hws mp a j b),
      Polars.rolling_apply_null_iff Polars.compute_var
        Polars.compute_var_eq_none_iff values valid ws mp Polars.det_offsets_center i hi
        (hBc hws) (fun a j b => hQc hws mp a j b)⟩

/-- C2 witness: the null-count law applied to the column [1, null, 3]
(buffer [1, 2, 3], validity [true, false, true]) with window_size 2,
min_periods 2, trailing alignment, at position 1. -/
theorem C2_witness :
    (([true, false, true] : List Bool).length = ([1, 2, 3] : List ℤ).length ∧
     1 ≤ 2 ∧ 1 < ([1, 2, 3] : List ℤ).length) ∧
    ((Polars.rolling_apply Polars.compute_sum [(1 : ℤ), 2, 3] [true, false, true] 2 2
        Polars.det_offsets).getD 1 none = none ↔
      Polars.validCount [true, false, true]
        (Polars.det_offsets 1 2 ([1, 2, 3] : List ℤ).length).1
        (Polars.winLen Polars.det_offsets 2 ([1, 2, 3] : List ℤ).length 1) < 2) :=
  ⟨⟨by decide, by decide, by decide⟩,
   (C2_window_null_count_law [(1 : ℤ), 2, 3] [true, false, true] 2 2 false 1
      (by decide) (by decide) (by decide)).2.1⟩

namespace Polars

theorem natToT_rat : ∀ n : ℕ, (natToT n : ℚ) = (n : ℚ) := by
  intro n
  induction n with
  | zero => rfl
  | succ n ih =>
    show (natToT n : ℚ) + 1 = ((n + 1 : ℕ) : ℚ)
    rw [ih]
    push_cast
    ring

theorem foldl_add_eq_sum : ∀ (l : List ℚ) (acc : ℚ),
    l.foldl (fun a v => a + v) acc = acc + l.sum := by
  intro l
  induction l with
  | nil => intro acc; simp
  | cons v rest ih =>
    intro acc
    simp only [List.foldl_cons, List.sum_cons, ih]
    ring

theorem foldl_sq_eq_sum (m : ℚ) : ∀ (l : List ℚ) (acc : ℚ),
    l.foldl (fun a v => a + (v - m) * (v - m)) acc =
      acc + (l.map (fun v => (v - m) * (v - m))).sum := by
  intro l
  induction l with
  | nil => intro acc; simp
  | cons v rest ih =>
    intro acc
    simp only [List.foldl_cons, List.map_cons, List.sum_cons, ih]
    ring

theorem loopSum_eq (valid : List Bool) : ∀ (vals : List ℚ) (off : ℕ) (acc : ℚ),
    loopSum valid off vals acc = acc + (keptVals valid off vals).sum := by
  intro vals
  induction vals with
  | nil => intro off acc; simp [loopSum, keptVals]
  | cons v rest ih =>
    intro off acc
    simp only [loopSum, keptVals]
    split
    · rw [ih (off + 1)]
      simp only [List.sum_cons]
      ring
    · rw [ih (off + 1)]

theorem loopSumCount_eq (valid : List Bool) : ∀ (vals : List ℚ) (off : ℕ) (acc : ℚ × ℚ),
    loopSumCount valid off vals acc =
      (acc.1 + (keptVals valid off vals : List ℚ).sum,
       acc.2 + ((keptVals valid off vals : List ℚ).length : ℚ)) := by
  intro vals
  induction vals with
  | nil => intro off acc; simp [loopSumCount, keptVals]
  | cons v rest ih =>
    intro off acc
    simp only [loopSumCount, keptVals]
    split
    · rw [ih (off + 1)]
      simp only [List.sum_cons, List.length_cons, Prod.mk.injEq]
      refine ⟨by ring, by push_cast; ring⟩
    · rw [ih (off + 1)]

theorem loopSqCount_eq (valid : List Bool) (m : ℚ) :
    ∀ (vals : List ℚ) (off : ℕ) (acc : ℚ × ℚ),
    loopSqCount valid m off vals acc =
      (acc.1 + ((keptVals valid off vals).map (fun v => (v - m) * (v - m))).sum,
       acc.2 + ((keptVals valid off vals : List ℚ).length : ℚ)) := by
  intro vals
  induction vals with
  | nil => intro off acc; simp [loopSqCount, keptVals]
  | cons v rest ih =>
    intro off acc
    simp only [loopSqCount, keptVals]
    split
    · rw [ih (off + 1)]
      simp only [List.map_cons, List.sum_cons, List.length_cons, Prod.mk.injEq]
      refine ⟨by ring, by push_cast; ring⟩
    · rw [ih (off + 1)]

theorem no_nulls_compute_var_eq_spec (vals : List ℚ) :
    no_nulls_compute_var vals = specVar vals := by
  unfold no_nulls_compute_var specVar no_nulls_compute_mean specMean no_nulls_compute_sum
  rw [foldl_add_eq_sum, natToT_rat,
    foldl_sq_eq_sum ((0 + vals.sum) / (vals.length : ℚ))]
  simp

theorem compute_mean_some_spec (vals : List ℚ) (valid : List Bool) (off mp : ℕ)
    (hnz : nullsIn valid off vals.length ≠ 0)
    (hcnt : ¬ (vals.length - nullsIn valid off vals.length < mp)) :
    compute_mean vals valid off mp = some (specMean (keptVals valid off vals)) := by
  unfold compute_mean
  dsimp only
  rw [if_neg hnz, if_neg hcnt, loopSumCount_eq]
  unfold specMean
  simp

theorem loopSumCount_kept_nil {α : Type} [Zero α] [One α] [Add α] [Sub α] [Mul α] [Div α]
    (valid : List Bool) :
    ∀ (vals : List α) (off : ℕ) (acc : α × α),
      keptVals valid off vals = [] → loopSumCount valid off vals acc = acc := by
  intro vals
  induction vals with
  | nil => intro off acc _; rfl
  | cons v rest ih =>
    intro off acc hkept
    cases hb : valid.getD off true with
    | true =>
      simp only [keptVals, hb, if_true] at hkept
      cases hkept
    | false =>
      simp only [keptVals, hb, Bool.false_eq_true, if_false] at hkept
      simp only [loopSumCount, hb, Bool.false_eq_true, if_false]
      exact ih (off + 1) acc hkept

theorem loopSumCount_kept_single {α : Type} [Zero α] [One α] [Add α] [Sub α] [Mul α] [Div α]
    (valid : List Bool) :
    ∀ (vals : List α) (off : ℕ) (acc : α × α) (x : α),
      keptVals valid off vals = [x] →
      loopSumCount valid off vals acc = (acc.1 + x, acc.2 + 1) := by
  intro vals
  induction vals with
  | nil => intro off acc x hkept; cases hkept
  | cons v rest ih =>
    intro off acc x hkept
    cases hb : valid.getD off true with
    | true =>
      simp only [keptVals, hb, if_true, List.cons.injEq] at hkept
      obtain ⟨rfl, hrest⟩ := hkept
      simp only [loopSumCount, hb, if_true]
      exact loopSumCount_kept_nil valid rest (off + 1) _ hrest
    | false =>
      simp only [keptVals, hb, Bool.false_eq_true, if_false] at hkept
      simp only [loopSumCount, hb, Bool.false_eq_true, if_false]
      exact ih (off + 1) acc x hkept

theorem loopSqCount_kept_nil {α : Type} [Zero α] [One α] [Add α] [Sub α] [Mul α] [Div α]
    (valid : List Bool) (m : α) :
    ∀ (vals : List α) (off : ℕ) (acc : α × α),
      keptVals valid off vals = [] → loopSqCount valid m off vals acc = acc := by
  intro vals
  induction vals with
  | nil => intro off acc _; rfl
  | cons v rest ih =>
    intro off acc hkept
    cases hb : valid.getD off true with
    | true =>
      simp only [keptVals, hb, if_true] at hkept
      cases hkept
    | false =>
      simp only [keptVals, hb, Bool.false_eq_true, if_false] at hkept
      simp only [loopSqCount, hb, Bool.false_eq_true, if_false]
      exact ih (off + 1) acc hkept

theorem loopSqCount_kept_single {α : Type} [Zero α] [One α] [Add α] [Sub α] [Mul α] [Div α]
    (valid : List Bool) (m : α) :
    ∀ (vals : List α) (off : ℕ) (acc : α × α) (x : α),
      keptVals valid off vals = [x] →
      loopSqCount valid m off vals acc = (acc.1 + (x - m) * (x - m), acc.2 + 1) := by
  intro vals
  induction vals with
  | nil => intro off acc x hkept; cases hkept
  | cons v rest ih =>
    intro off acc x hkept
    cases hb : valid.getD off true with
    | true =>
      simp only [keptVals, hb, if_true, List.cons.injEq] at hkept
      obtain ⟨rfl, hrest⟩ := hkept
      simp only [loopSqCount, hb, if_true]
      exact loopSqCount_kept_nil valid m rest (off + 1) _ hrest
    | false =>
      simp only [keptVals, hb, Bool.false_eq_true, if_false] at hkept
      simp only [loopSqCount, hb, Bool.false_eq_true, if_false]
      exact ih (off + 1) acc x hkept

theorem div_zero_nonfinite (y : FloatM) :
    (y / FloatM.num 0).isFinite = false := by
  cases y with
  | nan => rfl
  | inf =>
    show (if (0 : ℚ) ≤ 0 then FloatM.inf else FloatM.ninf).isFinite = false
    rw [if_pos le_rfl]
    rfl
  | ninf =>
    show (if (0 : ℚ) ≤ 0 then FloatM.ninf else FloatM.inf).isFinite = false
    rw [if_pos le_rfl]
    rfl
  | num a =>
    show (if (0 : ℚ) = 0 then
        (if a = 0 then FloatM.nan else if 0 < a then FloatM.inf else FloatM.ninf)
      else FloatM.num (a / 0)).isFinite = false
    rw [if_pos rfl]
    split_ifs <;> rfl

end Polars

/-! ## Claim C8 -/

/-- C8: (a) whenever the window's count of valid values is at least
min_periods, the null-aware rolling variance equals the spec formula: the
mean of the valid subset, then the sum of squared deviations from that
mean over the same subset, divided by count - 1 (exact arithmetic model);
(b) in the IEEE double model, a window with exactly one valid value (and
min_periods <= 1) yields Some of a non-finite value — the division by
count - 1 = 0 — not a null and not an error. -/
theorem C8_variance_two_pass :
    (∀ (vals : List ℚ) (valid : List Bool) (off mp : ℕ),
      mp ≤ Polars.validCount valid off vals.length →
      Polars.compute_var vals valid off mp =
        some (Polars.specVar (Polars.keptVals valid off vals))) ∧
    (∀ (vals : List Polars.FloatM) (valid : List Bool) (off mp : ℕ),
      mp ≤ 1 → Polars.validCount valid off vals.length = 1 →
      ∃ w, Polars.compute_var vals valid off mp = some w ∧ w.isFinite = false) := by
  constructor
  · intro vals valid off mp hmp
    have hsum := Polars.validCount_add_nullsIn valid vals.length off
    have hkl := Polars.keptVals_length valid vals off
    by_cases hnz : Polars.nullsIn valid off vals.length = 0
    · have hall : ∀ k, k < vals.length → valid.getD (off + k) true = true :=
        (Polars.nullsIn_eq_zero_iff valid vals.length off).mp hnz
      have hkept : Polars.keptVals valid off vals = vals :=
        Polars.keptVals_all valid vals off hall
      unfold Polars.compute_var
      dsimp only
      rw [if_pos hnz, hkept, Polars.no_nulls_compute_var_eq_spec]
    · have hcnt : ¬ (vals.length - Polars.nullsIn valid off vals.length < mp) := by
        omega
      unfold Polars.compute_var
      dsimp only
      rw [if_neg hnz, if_neg hcnt,
        Polars.compute_mean_some_spec vals valid off mp hnz hcnt]
      dsimp only
      rw [Polars.loopSqCount_eq]
      unfold Polars.specVar
      rw [hkl]
      simp
  · intro vals valid off mp hmp hc1
    have hsum := Polars.validCount_add_nullsIn valid vals.length off
    have hkl := Polars.keptVals_length valid vals off
    have hkept1 : (Polars.keptVals valid off vals).length = 1 := by rw [hkl, hc1]
    obtain ⟨x, hx⟩ := List.length_eq_one.mp hkept1
    by_cases hnz : Polars.nullsIn valid off vals.length = 0
    · have hvlen : vals.length = 1 := by omega
      obtain ⟨y, hy⟩ := List.length_eq_one.mp hvlen
      subst hy
      unfold Polars.compute_var
      dsimp only
      rw [if_pos hnz]
      refine ⟨_, rfl, ?_⟩
      unfold Polars.no_nulls_compute_var
      have hden : (Polars.natToT ([y] : List Polars.FloatM).length : Polars.FloatM) - 1 =
          Polars.FloatM.num 0 := by
        show Polars.FloatM.num ((0 + 1) - 1) = Polars.FloatM.num 0
        norm_num
      rw [hden]
      exact Polars.div_zero_nonfinite _
    · have hcnt : ¬ (vals.length - Polars.nullsIn valid off vals.length < mp) := by
        omega
      unfold Polars.compute_var
      dsimp only
      rw [if_neg hnz, if_neg hcnt]
      have hmean : Polars.compute_mean vals valid off mp =
          some (((0 : Polars.FloatM) + x) / ((0 : Polars.FloatM) + 1)) := by
        unfold Polars.compute_mean
        dsimp only
        rw [if_neg hnz, if_neg hcnt,
          Polars.loopSumCount_kept_single valid vals off (0, 0) x hx]
      rw [hmean]
      dsimp only
      rw [Polars.loopSqCount_kept_single valid
        (((0 : Polars.FloatM) + x) / ((0 : Polars.FloatM) + 1)) vals off (0, 0) x hx]
      refine ⟨_, rfl, ?_⟩
      have hden2 : ((((0 : Polars.FloatM), (0 : Polars.FloatM)).2 + 1) - 1) =
          Polars.FloatM.num 0 := by
        show Polars.FloatM.num ((0 + 1) - 1) = Polars.FloatM.num 0
        norm_num
      rw [hden2]
      exact Polars.div_zero_nonfinite _

/-- C8 witness: the variance formula and the single-valid-value
non-finiteness at concrete windows. -/
theorem C8_witness :
    (1 ≤ Polars.validCount [true, false] 0 ([(3 : ℚ), 9] : List ℚ).length ∧
     Polars.compute_var [(3 : ℚ), 9] [true, false] 0 1 =
       some (Polars.specVar (Polars.keptVals [true, false] 0 [(3 : ℚ), 9]))) ∧
    (1 ≤ 1 ∧
     ∃ w, Polars.compute_var [Polars.FloatM.num 3, Polars.FloatM.num 9]
        [true, false] 0 1 = some w ∧ w.isFinite = false) :=
  ⟨⟨by decide, C8_variance_two_pass.1 [(3 : ℚ), 9] [true, false] 0 1 (by decide)⟩,
   ⟨le_refl 1, C8_variance_two_pass.2 [Polars.FloatM.num 3, Polars.FloatM.num 9]
      [true, false] 0 1 (le_refl 1) (by decide)⟩⟩
